import Mathlib

/-!
Verification of the snippet-checker (src/snippet-checker/src/main.rs).

Texts are modelled as `List Char` (the program is byte/char oriented and all
the relevant markers are ASCII).  Rust's `str` operations used by the program
are given faithful counterparts:

  * `rustLines`  models `str::lines()` (split on `'\n'`, a final line ending
    is optional, and a `'\r'` immediately preceding a `'\n'` is stripped);
  * `trimStart` / `trim` model `trim_start` / `trim` (whitespace is modelled
    by `Char.isWhitespace`, the ASCII subset of Rust's Unicode whitespace);
  * `stripPre` models `str::strip_prefix`;
  * `joinNl` models joining a vector of lines with `"\n"`.

File-system access (`validate_file_path` + `fs::read_to_string`) is modelled
by an abstract map `fs : List Char → Option (List Char)` from a declared
snippet path to the contents of the resolved file (`none` when the path does
not resolve).  A `panic!`/failed `assert!` is modelled as `Except.error` with
a `PanicKind` naming which of the three fatal conditions fired.
-/

def str (s : String) : List Char := s.data

def isWs (c : Char) : Bool := c.isWhitespace

def trimStart (l : List Char) : List Char := l.dropWhile isWs

def trimEnd (l : List Char) : List Char := (l.reverse.dropWhile isWs).reverse

/-- Model of Rust `str::trim`. -/
def trim (l : List Char) : List Char := trimEnd (trimStart l)

/-- Tests whether `p` is an initial segment of `l` (Rust `str::starts_with`). -/
def hasPre (p l : List Char) : Bool := decide (l.take p.length = p)

/-- Model of Rust `str::strip_prefix`. -/
def stripPre (p l : List Char) : Option (List Char) :=
  if l.take p.length = p then some (l.drop p.length) else none

/-- Split on `'\n'`, keeping empty segments; always returns a nonempty list. -/
def splitNl : List Char → List (List Char)
  | [] => [[]]
  | c :: cs =>
    match splitNl cs with
    | [] => [[]]
    | l :: ls => if c = '\n' then [] :: l :: ls else (c :: l) :: ls

/-- Remove one trailing `'\r'`, as Rust `lines()` does on `'\n'`-terminated lines. -/
def stripCr (l : List Char) : List Char :=
  if l.getLast? = some '\r' then l.dropLast else l

/-- Model of Rust `str::lines()`.  Every segment except a final unterminated one
was terminated by `'\n'` and therefore has a trailing `'\r'` stripped. -/
def rustLines (s : List Char) : List (List Char) :=
  if s.isEmpty then []
  else
    let segs := splitNl s
    if segs.getLast? = some [] then segs.dropLast.map stripCr
    else segs.dropLast.map stripCr ++ [(segs.getLast?).getD []]

/-- Join lines with `"\n"` (the `collect::<Vec<_>>().join("\n")` / push pattern). -/
def joinNl : List (List Char) → List Char
  | [] => []
  | [l] => l
  | l :: ls => l ++ '\n' :: joinNl ls

example : rustLines (str "a\nb") = [str "a", str "b"] := by decide
example : rustLines (str "a\n") = [str "a"] := by decide
example : rustLines (str "") = [] := by decide
example : rustLines (str "\n") = [[]] := by decide
example : rustLines (str "a\r\nb\n\n") = [str "a", str "b", []] := by decide
example : joinNl [str "a", str "b"] = str "a\nb" := by decide

/-! ## The Normalizer (`strip_comments`, `remove_identation`) -/

/-- The filter of `strip_comments` and the meaningful-line test of
`extract_clean_block` (main.rs lines 185-188 and 231):
`!line.trim_start().starts_with("//") && !line.trim().is_empty()`. -/
def keepLine (l : List Char) : Bool :=
  !hasPre (str "//") (trimStart l) && !decide (trim l = [])

/-- The directive-marker test of `strip_comments` (main.rs line 175):
`trimmed.starts_with('#') && !trimmed.starts_with("#[")`. -/
def bareHash (l : List Char) : Bool :=
  hasPre (str "#") (trimStart l) && !hasPre (str "#[") (trimStart l)

/-- The per-line map of `strip_comments` (main.rs lines 171-184): when the
left-trimmed line starts with `'#'` but not `"#["`, split the line at its
first `'#'` (`line.find('#')`), keep the part before it, drop the `'#'`
itself, and left-trim the part after it. -/
def scLine (line : List Char) : List Char :=
  if bareHash line then
    line.takeWhile (· ≠ '#') ++ trimStart ((line.dropWhile (· ≠ '#')).drop 1)
  else line

/-- Model of `strip_comments` (main.rs lines 169-191). -/
def strip_comments (code : List Char) : List Char :=
  joinNl (((rustLines code).map scLine).filter keepLine)

/-- The four-space indentation unit (`" ".repeat(4)`, main.rs line 137). -/
def fourSpaces : List Char := str "    "

/-- The line loop of `remove_identation`: strip the four-space unit from every
line, failing (early return of `None`) as soon as one line lacks it. -/
def remove_lines : List (List Char) → Option (List (List Char))
  | [] => some []
  | l :: ls =>
    match stripPre fourSpaces l, remove_lines ls with
    | some t, some ts => some (t :: ts)
    | _, _ => none

/-- Model of `remove_identation` (main.rs lines 135-152): `None` when some line
lacks the four-space unit, otherwise the lines with the unit removed, rejoined
with `'\n'` (the incremental `push`/`push_str` building of the Rust loop). -/
def remove_identation (block : List Char) : Option (List Char) :=
  (remove_lines (rustLines block)).map joinNl

example : strip_comments (str "let x = 1;\n\n// c\nlet y;") = str "let x = 1;\nlet y;" := by decide
example : strip_comments (str "# fn main()") = str "fn main()" := by decide
example : strip_comments (str "#[derive(Debug)]") = str "#[derive(Debug)]" := by decide
example : remove_identation (str "    a\n    b") = some (str "a\nb") := by decide
example : remove_identation (str "    a\nb") = none := by decide
example : remove_identation (str "") = some (str "") := by decide

/-! ## The Block Locator (`extract_clean_block`) -/

/-- The `for (i, line)` loop of `extract_clean_block` (main.rs lines 223-246).
State: `inside` (`inside_block`), `start` (`block_start_line`), and `acc`, the
meaningful lines captured so far (`block` joined with `'\n'`; `block_lines` is
`acc.length`).  Each iteration first checks the anchor (`line.trim() ==
first_line.trim()`), then, when inside, captures the raw line if it is
meaningful and stops (`break`) once `acc.length` reaches `target`.
The Rust `assert_eq!(block.lines().count(), block_lines)` always holds (the
captured lines are `'\n'`-free and nonempty) and is not modelled. -/
def extract_loop (firstLine : List Char) (target : Nat) :
    List (List Char) → Nat → Bool → Nat → List (List Char) →
    Bool × Nat × List (List Char)
  | [], _, inside, start, acc => (inside, start, acc)
  | line :: rest, i, inside, start, acc =>
    let found := !inside && decide (trim line = trim firstLine)
    let inside2 := inside || found
    let start2 := if found then i + 1 else start
    if inside2 then
      let acc2 := if keepLine line then acc ++ [line] else acc
      if acc2.length = target then (inside2, start2, acc2)
      else extract_loop firstLine target rest (i + 1) inside2 start2 acc2
    else extract_loop firstLine target rest (i + 1) inside2 start2 acc

/-- Model of `extract_clean_block` (main.rs lines 214-254): anchor on the first
non-blank snippet line, accumulate meaningful file lines from the anchor until
their count reaches the snippet's total line count, and return the 1-based
anchor line number with the accumulated block; `None` when the anchor (or a
non-blank snippet line) was never found. -/
def extract_clean_block (file_content snippet : List Char) :
    Option (Nat × List Char) :=
  let snippet_lines := (rustLines snippet).length
  match (rustLines snippet).find? (fun l => !decide (trim l = [])) with
  | none => none
  | some first_line =>
    match extract_loop first_line snippet_lines (rustLines file_content) 0 false 0 [] with
    | (true, start, acc) => some (start, joinNl acc)
    | (false, _, _) => none

example : extract_clean_block (str "fn f()\n// c\n  body\nend") (str "fn f()\nbody\nend")
    = some (1, str "fn f()\n  body\nend") := by decide
example : extract_clean_block (str "x\ny") (str "z") = none := by decide
example : extract_clean_block (str "a") (str "a\nb") = some (1, str "a") := by decide

/-! ## The Comparator (`get_md_snippets_diff`) -/

/-- Which fatal condition (a Rust `panic!` or failed `assert!`) fired. -/
inductive PanicKind
  | pathNotFound
  | badSnippetIndent
  | blockNotFound
  deriving DecidableEq

instance {ε α : Type} [DecidableEq ε] [DecidableEq α] : DecidableEq (Except ε α) :=
  fun x y =>
    match x, y with
    | .error a, .error b =>
      if h : a = b then isTrue (by rw [h]) else isFalse (by simp [h])
    | .ok a, .ok b =>
      if h : a = b then isTrue (by rw [h]) else isFalse (by simp [h])
    | .error _, .ok _ => isFalse (by simp)
    | .ok _, .error _ => isFalse (by simp)

/-- The comparison decision of main.rs lines 106-116 for one snippet: a match
when the cleaned snippet equals the block outright, or equals the block after
`remove_identation` succeeds on it; otherwise a mismatch (a recorded diff). -/
def snippet_matches (cleaned block : List Char) : Bool :=
  cleaned = block ||
    match remove_identation block with
    | some no_ident => decide (cleaned = no_ident)
    | none => false

/-- The body of the snippet loop (main.rs lines 76-129) for one snippet.
`fs` abstracts `validate_file_path` + `fs::read_to_string`: it maps a declared
path to the contents of the resolved file, `none` when the path does not
resolve (`panic!`, line 78).  Then the snippet is comment-stripped, the
no-uniform-indentation `assert!` (line 89) fires when `remove_identation` on
it is `Some`, `extract_clean_block` failure panics (line 97), and finally the
comparison updates the document diff flag. -/
def process_snippet (fs : List Char → Option (List Char))
    (path snippet : List Char) (diff : Option Bool) :
    Except PanicKind (Option Bool) :=
  match fs path with
  | none => .error .pathNotFound
  | some code_content =>
    let cleaned_snippet := strip_comments snippet
    if (remove_identation cleaned_snippet).isSome then .error .badSnippetIndent
    else
      match extract_clean_block code_content cleaned_snippet with
      | none => .error .blockNotFound
      | some (_, block) =>
        if snippet_matches cleaned_snippet block then .ok diff
        else .ok (some true)

/-- The `for (i, caps)` loop of `get_md_snippets_diff` (main.rs lines 69-130):
on the first iteration (`i == 0`) the document flag becomes `Some(false)`, and
each snippet is processed in order, any panic aborting the run. -/
def process_snippets (fs : List Char → Option (List Char)) :
    Nat → List (List Char × List Char) → Option Bool →
    Except PanicKind (Option Bool)
  | _, [], diff => .ok diff
  | i, (path, snippet) :: rest, diff =>
    let diff0 := if i = 0 then some false else diff
    match process_snippet fs path snippet diff0 with
    | .error e => .error e
    | .ok diff2 => process_snippets fs (i + 1) rest diff2

/-! ## The Snippet Extractor (the regex `(?s)(three backticks)rust\n# // Path: (.*?)\n(.*?)\n(three backticks)`)

`captures_iter` has leftmost-first semantics with lazy groups.  A match starts
at an occurrence of the literal opening `fenceOpen`; group 1 is lazily minimal,
so it ends at the first `'\n'` after the opening; group 2 is lazily minimal,
so it ends at the first occurrence of `fenceClose = "\n(three backticks)"` after that; the
search then resumes at the end of the match.  When the first occurrence of the
opening cannot be completed, no later occurrence can either: `fenceOpen`
contains `'\n'` and any later completion's closing `fenceClose` would lie in
the region already searched for `fenceClose` (and `fenceOpen` has no
nontrivial self-overlap), so returning no further matches is faithful. -/

/-- Index of the first occurrence of `pat` in `s` (Rust `str::find` on a
substring pattern), `none` when `pat` does not occur. -/
def findSub (pat : List Char) : List Char → Option Nat
  | [] => if pat = [] then some 0 else none
  | c :: cs =>
    if hasPre pat (c :: cs) then some 0
    else (findSub pat cs).map (· + 1)

/-- The literal opening of an annotated fence: three backticks, `rust`, a
newline, and the path-marker prefix. -/
def fenceOpen : List Char := str "```rust\n# // Path: "

/-- The literal that ends a snippet body: a newline followed by three
backticks. -/
def fenceClose : List Char := str "\n```"

/-- One step of `captures_iter`, with explicit fuel to bound the iteration
(each match consumes at least `fenceOpen.length` characters, so fuel
`s.length + 1` always suffices). -/
def extract_go : Nat → List Char → List (List Char × List Char)
  | 0, _ => []
  | fuel + 1, s =>
    match findSub fenceOpen s with
    | none => []
    | some idx =>
      let rest := s.drop (idx + fenceOpen.length)
      match findSub (str "\n") rest with
      | none => []
      | some k =>
        let path := rest.take k
        let after := rest.drop (k + 1)
        match findSub fenceClose after with
        | none => []
        | some j =>
          (path, after.take j) :: extract_go fuel (after.drop (j + fenceClose.length))

/-- The sequence of `(path, snippet)` capture pairs of the fence regex over a
document (main.rs lines 57 and 69-71). -/
def extract_snippets (s : List Char) : List (List Char × List Char) :=
  extract_go (s.length + 1) s

/-- The blockquote-stripping preprocessing of `get_md_snippets_diff`
(main.rs lines 63-67): drop a leading `"> "` from every line and rejoin. -/
def bqStrip (md_file : List Char) : List Char :=
  joinNl ((rustLines md_file).map (fun line => (stripPre (str "> ") line).getD line))

/-- Model of `get_md_snippets_diff` (main.rs lines 56-133): strip blockquote
markers, extract every annotated fence, and run the snippet loop starting from
the `None` (no snippets) document flag. -/
def get_md_snippets_diff (fs : List Char → Option (List Char))
    (md_file : List Char) : Except PanicKind (Option Bool) :=
  process_snippets fs 0 (extract_snippets (bqStrip md_file)) none

example :
    extract_snippets (str "intro\n```rust\n# // Path: a.rs\nlet x = 1;\nlet y;\n```\nrest")
      = [(str "a.rs", str "let x = 1;\nlet y;")] := by decide
example : extract_snippets (str "no fences here") = [] := by decide
example :
    get_md_snippets_diff (fun p => if p = str "a.rs" then some (str "let x = 1;") else none)
      (str "```rust\n# // Path: a.rs\nlet x = 1;\n```")
      = .ok (some false) := by decide
example :
    get_md_snippets_diff (fun p => if p = str "a.rs" then some (str "let x = 1;\nlet y = 3;") else none)
      (str "```rust\n# // Path: a.rs\nlet x = 1;\nlet y = 2;\n```")
      = .ok (some true) := by decide
example :
    get_md_snippets_diff (fun _ => none) (str "just prose") = .ok none := by decide

/-! ## Helper lemmas -/

lemma fourSpaces_length : fourSpaces.length = 4 := by decide

lemma stripPre_of_hasPre (p l : List Char) (h : hasPre p l = true) :
    stripPre p l = some (l.drop p.length) := by
  unfold hasPre at h
  simp only [decide_eq_true_eq] at h
  unfold stripPre
  rw [if_pos h]

lemma stripPre_of_not_hasPre (p l : List Char) (h : hasPre p l = false) :
    stripPre p l = none := by
  unfold hasPre at h
  simp only [decide_eq_false_iff_not] at h
  unfold stripPre
  rw [if_neg h]

lemma remove_lines_all (ls : List (List Char))
    (h : ∀ l ∈ ls, hasPre fourSpaces l = true) :
    remove_lines ls = some (ls.map (fun l => l.drop 4)) := by
  induction ls with
  | nil => rfl
  | cons hd tl ih =>
    have h1 : stripPre fourSpaces hd = some (hd.drop 4) := by
      rw [stripPre_of_hasPre fourSpaces hd (h hd (List.mem_cons_self hd tl)),
        fourSpaces_length]
    unfold remove_lines
    rw [h1, ih (fun x hx => h x (List.mem_cons_of_mem hd hx))]
    rfl

lemma remove_lines_fail (ls : List (List Char)) :
    ∀ l ∈ ls, hasPre fourSpaces l = false → remove_lines ls = none := by
  induction ls with
  | nil => intro l hl; cases hl
  | cons hd tl ih =>
    intro l hl hfail
    rcases List.mem_cons.mp hl with rfl | hmem
    · have h1 : stripPre fourSpaces l = none := stripPre_of_not_hasPre _ _ hfail
      unfold remove_lines
      rw [h1]
    · unfold remove_lines
      rw [ih l hmem hfail]
      cases stripPre fourSpaces hd <;> rfl

/-! ## Claim C5 -/

/-- Claim C5: `remove_identation` is all-or-nothing: when every line of the
block carries the four-space prefix it returns the block with the prefix
removed from all lines, and when any line lacks the prefix it returns the
`none` sentinel, never a partially de-indented block. -/
theorem remove_identation_all_or_nothing (b : List Char) :
    ((∀ l ∈ rustLines b, hasPre fourSpaces l = true) →
        remove_identation b = some (joinNl ((rustLines b).map (fun l => l.drop 4)))) ∧
    ((∃ l ∈ rustLines b, hasPre fourSpaces l = false) →
        remove_identation b = none) := by
  constructor
  · intro h
    unfold remove_identation
    rw [remove_lines_all (rustLines b) h]
    rfl
  · rintro ⟨l, hl, hfail⟩
    unfold remove_identation
    rw [remove_lines_fail (rustLines b) l hl hfail]
    rfl

/-- Witness for C5 at two concrete blocks, one fully indented and one with a
bare second line. -/
theorem remove_identation_all_or_nothing_witness :
    remove_identation (str "    a\n    b")
        = some (joinNl ((rustLines (str "    a\n    b")).map (fun l => l.drop 4))) ∧
    remove_identation (str "    a\nb") = none :=
  ⟨(remove_identation_all_or_nothing (str "    a\n    b")).1 (by decide),
   (remove_identation_all_or_nothing (str "    a\nb")).2 ⟨str "b", by decide, by decide⟩⟩

/-! ## Claims C8 and C10 -/

lemma process_cons_badIndent (fs : List Char → Option (List Char))
    (i : Nat) (p s : List Char) (rest : List (List Char × List Char))
    (diff : Option Bool) (content : List Char)
    (hfs : fs p = some content)
    (hin : (remove_identation (strip_comments s)).isSome = true) :
    process_snippets fs i ((p, s) :: rest) diff = .error .badSnippetIndent := by
  have hp : ∀ d, process_snippet fs p s d = .error .badSnippetIndent := by
    intro d
    unfold process_snippet
    rw [hfs]
    simp [hin]
  unfold process_snippets
  simp only []
  rw [hp]

/-- Claim C8: a snippet whose comment-stripped form still has uniform leading
indentation (so `remove_identation` on it succeeds) makes the snippet loop
abort with the indentation-precondition panic (the `assert!` of main.rs line
89) instead of recording a per-snippet mismatch and continuing. -/
theorem uniform_indent_snippet_aborts (fs : List Char → Option (List Char))
    (i : Nat) (p s : List Char) (rest : List (List Char × List Char))
    (diff : Option Bool) (content : List Char)
    (hfs : fs p = some content)
    (hin : (remove_identation (strip_comments s)).isSome = true) :
    process_snippets fs i ((p, s) :: rest) diff = .error .badSnippetIndent :=
  process_cons_badIndent fs i p s rest diff content hfs hin

/-- Witness for C8: a fully indented snippet aborts the run. -/
theorem uniform_indent_snippet_aborts_witness :
    process_snippets (fun _ => some (str "code")) 0 [(str "f.rs", str "    a")] none
      = .error .badSnippetIndent :=
  uniform_indent_snippet_aborts (fun _ => some (str "code")) 0 (str "f.rs")
    (str "    a") [] none (str "code") rfl (by decide)

lemma trimStart_head_not_ws (l : List Char) :
    ∀ c cs, trimStart l = c :: cs → isWs c = false := by
  induction l with
  | nil => intro c cs h; cases h
  | cons a l ih =>
    intro c cs h
    rw [trimStart, List.dropWhile_cons] at h
    split at h
    · exact ih c cs h
    · cases h
      simpa using ‹¬ isWs a = true›

lemma trimStart_of_trim_nil (l : List Char) (h : trim l = []) : trimStart l = [] := by
  unfold trim trimEnd at h
  have h2 : (trimStart l).reverse.dropWhile isWs = [] := by
    have := congrArg List.reverse h
    simpa using this
  have hall : ∀ c ∈ (trimStart l).reverse, isWs c = true :=
    List.dropWhile_eq_nil_iff.mp h2
  cases hts : trimStart l with
  | nil => rfl
  | cons c cs =>
    have hcws : isWs c = true := hall c (by rw [hts]; simp)
    have := trimStart_head_not_ws l c cs hts
    rw [this] at hcws
    cases hcws

lemma hasPre_hash_of_slashes (t : List Char) (h : hasPre (str "//") t = true) :
    hasPre (str "#") t = false := by
  unfold hasPre at h ⊢
  simp only [decide_eq_true_eq] at h
  simp only [decide_eq_false_iff_not]
  intro hc
  have h2 : t = '/' :: '/' :: t.drop 2 := by
    have := List.take_append_drop (str "//").length t
    rw [h] at this
    exact this.symm
  rw [h2] at hc
  simp [str] at hc

lemma scLine_of_not_keepLine (l : List Char) (h : keepLine l = false) :
    scLine l = l := by
  unfold keepLine at h
  unfold scLine
  rcases Bool.and_eq_false_iff.mp h with h1 | h1
  · -- the line is a comment: its left-trimmed form starts with "//", not '#'
    simp only [Bool.not_eq_false'] at h1
    have h2 : bareHash l = false := by
      unfold bareHash
      rw [hasPre_hash_of_slashes _ h1]
      rfl
    rw [h2]
    rfl
  · -- the line is blank: all whitespace, so its left-trimmed form is empty
    simp only [Bool.not_eq_false'] at h1
    simp only [decide_eq_true_eq] at h1
    have hnil : trimStart l = [] := trimStart_of_trim_nil l h1
    have h2 : bareHash l = false := by
      unfold bareHash hasPre
      rw [hnil]
      simp [str]
    rw [h2]
    rfl

lemma strip_comments_nil_of_all_dropped (s : List Char)
    (h : ∀ l ∈ rustLines s, keepLine l = false) :
    strip_comments s = [] := by
  unfold strip_comments
  have h2 : ((rustLines s).map scLine).filter keepLine = [] := by
    rw [List.filter_eq_nil_iff]
    intro a ha
    rcases List.mem_map.mp ha with ⟨l, hl, rfl⟩
    rw [scLine_of_not_keepLine l (h l hl)]
    simp [h l hl]
  rw [h2]
  rfl

/-- Claim C10: a snippet whose body consists only of comment lines and blank
lines strips to the empty string, `remove_identation` reports uniform
indentation on the empty string (`some ""`), and therefore the
no-uniform-indentation precondition fails and the run aborts, even though the
snippet contains no indented line at all. -/
theorem comment_only_snippet_aborts (s : List Char)
    (h : ∀ l ∈ rustLines s, hasPre (str "//") (trimStart l) = true ∨ trim l = []) :
    strip_comments s = [] ∧
    remove_identation ([] : List Char) = some [] ∧
    ∀ (fs : List Char → Option (List Char)) (i : Nat) (p : List Char)
      (rest : List (List Char × List Char)) (diff : Option Bool) (content : List Char),
      fs p = some content →
      process_snippets fs i ((p, s) :: rest) diff = .error .badSnippetIndent := by
  have hk : ∀ l ∈ rustLines s, keepLine l = false := by
    intro l hl
    unfold keepLine
    rcases h l hl with h1 | h1
    · rw [h1]; rfl
    · simp [h1]
  have h1 := strip_comments_nil_of_all_dropped s hk
  refine ⟨h1, rfl, ?_⟩
  intro fs i p rest diff content hfs
  apply process_cons_badIndent fs i p s rest diff content hfs
  rw [h1]
  rfl

/-- Witness for C10 at a snippet made of one comment line and one blank line. -/
theorem comment_only_snippet_aborts_witness :
    strip_comments (str "// c\n\n") = [] ∧
    process_snippets (fun _ => some (str "code")) 0 [(str "f.rs", str "// c\n\n")] none
      = .error .badSnippetIndent :=
  ⟨(comment_only_snippet_aborts (str "// c\n\n") (by decide)).1,
   (comment_only_snippet_aborts (str "// c\n\n") (by decide)).2.2
     (fun _ => some (str "code")) 0 (str "f.rs") [] none (str "code") rfl⟩

/-! ## Claim C6 -/

/-- Claim C6: a document in which the fence pattern recognizes zero annotated
snippets yields the `none` (NoSnippets) verdict from `get_md_snippets_diff`,
which is distinct from the `some false` (Match) verdict produced when snippets
exist but none mismatch. -/
theorem no_snippets_verdict (fs : List Char → Option (List Char)) (md : List Char)
    (h : extract_snippets (bqStrip md) = []) :
    get_md_snippets_diff fs md = .ok none ∧
    (Except.ok (none : Option Bool) : Except PanicKind (Option Bool)) ≠ .ok (some false) := by
  constructor
  · unfold get_md_snippets_diff
    rw [h]
    rfl
  · simp

/-- Witness for C6 at a document with no fences. -/
theorem no_snippets_verdict_witness :
    get_md_snippets_diff (fun _ => none) (str "plain prose\n> quoted") = .ok none :=
  (no_snippets_verdict (fun _ => none) (str "plain prose\n> quoted") (by decide)).1

/-! ## Behaviour of the locator loop (for claims C1 and C9) -/

lemma extract_loop_inside (fl : List Char) (t : Nat) (lines : List (List Char)) :
    ∀ i start acc,
      (extract_loop fl t lines i true start acc).1 = true ∧
      (extract_loop fl t lines i true start acc).2.1 = start := by
  induction lines with
  | nil => intro i start acc; exact ⟨rfl, rfl⟩
  | cons line rest ih =>
    intro i start acc
    simp only [extract_loop, Bool.not_true, Bool.false_and, Bool.or_false, if_true,
      if_false, ite_self]
    split
    all_goals split
    · exact ⟨rfl, rfl⟩
    · exact ih (i + 1) start _
    · exact ⟨rfl, rfl⟩
    · exact ih (i + 1) start _

lemma extract_loop_skip (fl : List Char) (t : Nat) (line : List Char)
    (rest : List (List Char)) (i start : Nat) (acc : List (List Char))
    (h : trim line ≠ trim fl) :
    extract_loop fl t (line :: rest) i false start acc
      = extract_loop fl t rest (i + 1) false start acc := by
  simp only [extract_loop, Bool.not_false, Bool.true_and, Bool.false_or]
  rw [decide_eq_false h]
  rfl

lemma extract_loop_anchor (fl : List Char) (t : Nat) (anchor : List Char)
    (rest : List (List Char)) (i start : Nat) (acc : List (List Char))
    (h : trim anchor = trim fl) :
    (extract_loop fl t (anchor :: rest) i false start acc).1 = true ∧
    (extract_loop fl t (anchor :: rest) i false start acc).2.1 = i + 1 := by
  simp only [extract_loop, Bool.not_false, Bool.true_and, Bool.false_or]
  rw [decide_eq_true h]
  simp only [if_true]
  split
  all_goals split
  · exact ⟨rfl, rfl⟩
  · exact extract_loop_inside fl t rest (i + 1) (i + 1) _
  · exact ⟨rfl, rfl⟩
  · exact extract_loop_inside fl t rest (i + 1) (i + 1) _

lemma extract_loop_pre (fl : List Char) (t : Nat) (anchor : List Char)
    (post : List (List Char)) (hanchor : trim anchor = trim fl)
    (pre : List (List Char)) :
    ∀ i start acc, (∀ l ∈ pre, trim l ≠ trim fl) →
      (extract_loop fl t (pre ++ anchor :: post) i false start acc).1 = true ∧
      (extract_loop fl t (pre ++ anchor :: post) i false start acc).2.1
        = i + pre.length + 1 := by
  induction pre with
  | nil =>
    intro i start acc _
    simpa using extract_loop_anchor fl t anchor post i start acc hanchor
  | cons p pre' ih =>
    intro i start acc hpre
    rw [List.cons_append,
      extract_loop_skip fl t p (pre' ++ anchor :: post) i start acc
        (hpre p (List.mem_cons_self p pre'))]
    have := ih (i + 1) start acc (fun l hl => hpre l (List.mem_cons_of_mem p hl))
    refine ⟨this.1, ?_⟩
    rw [this.2]
    simp only [List.length_cons]
    omega

/-! ## Claim C9 -/

/-- Claim C9: whenever `extract_clean_block` returns a block, the returned
starting line number is the 1-based index of the first file line whose trimmed
content equals the trimmed first non-blank line of the snippet (the anchor):
the file lines decompose as `pre ++ anchor :: post` with no anchor match in
`pre`, and the returned number is `pre.length + 1`. -/
theorem extract_start_is_first_anchor (f s fl anchor : List Char)
    (pre post : List (List Char))
    (hfl : (rustLines s).find? (fun l => !decide (trim l = [])) = some fl)
    (hsplit : rustLines f = pre ++ anchor :: post)
    (hpre : ∀ l ∈ pre, trim l ≠ trim fl)
    (hanchor : trim anchor = trim fl)
    (n : Nat) (b : List Char)
    (h : extract_clean_block f s = some (n, b)) :
    n = pre.length + 1 := by
  unfold extract_clean_block at h
  rw [hfl, hsplit] at h
  simp only at h
  have hloop := extract_loop_pre fl (rustLines s).length anchor post hanchor pre 0 0 [] hpre
  rcases hr : extract_loop fl (rustLines s).length (pre ++ anchor :: post) 0 false 0 []
    with ⟨inside, start, acc⟩
  rw [hr] at h hloop
  simp only at h hloop
  rw [hloop.1] at h
  simp only [Option.some.injEq, Prod.mk.injEq] at h
  rw [← h.1, hloop.2]
  omega

/-- Witness for C9: in a three-line file the anchor `"a"` is preceded by one
non-matching line, and the reported starting line is 2. -/
theorem extract_start_is_first_anchor_witness : (2 : Nat) = [str "x"].length + 1 :=
  extract_start_is_first_anchor (str "x\na\nb") (str "a\nb") (str "a") (str "a")
    [str "x"] [str "b"] (by decide) (by decide) (by decide) (by decide)
    2 (str "a\nb") (by decide)

/-! ## Claim C1 -/

lemma extract_loop_inside_all (fl : List Char) (t : Nat) (lines : List (List Char)) :
    ∀ i start acc, acc.length + (lines.filter keepLine).length < t →
      extract_loop fl t lines i true start acc
        = (true, start, acc ++ lines.filter keepLine) := by
  induction lines with
  | nil => intro i start acc _; simp [extract_loop]
  | cons line rest ih =>
    intro i start acc hlt
    simp only [extract_loop, Bool.not_true, Bool.false_and, Bool.or_false, if_true,
      if_false, ite_self, Bool.false_eq_true]
    by_cases hk : keepLine line
    · rw [if_pos hk]
      have hfc : (line :: rest).filter keepLine = line :: rest.filter keepLine :=
        List.filter_cons_of_pos hk
      rw [hfc] at hlt
      simp only [List.length_cons] at hlt
      have hne : (acc ++ [line]).length ≠ t := by
        simp only [List.length_append, List.length_cons, List.length_nil]
        omega
      rw [if_neg hne, ih (i + 1) start (acc ++ [line]) (by simpa using (by omega :
        acc.length + 1 + (rest.filter keepLine).length < t))]
      rw [hfc]
      simp
    · rw [if_neg hk]
      have hfc : (line :: rest).filter keepLine = rest.filter keepLine :=
        List.filter_cons_of_neg hk
      rw [hfc] at hlt
      have hne : acc.length ≠ t := by omega
      rw [if_neg hne, ih (i + 1) start acc hlt, hfc]

lemma extract_loop_anchor_all (fl : List Char) (t : Nat) (anchor : List Char)
    (post : List (List Char)) (i start : Nat)
    (hanchor : trim anchor = trim fl)
    (hlt : ((anchor :: post).filter keepLine).length < t) :
    extract_loop fl t (anchor :: post) i false start []
      = (true, i + 1, (anchor :: post).filter keepLine) := by
  simp only [extract_loop, Bool.not_false, Bool.true_and, Bool.false_or]
  rw [decide_eq_true hanchor]
  simp only [if_true, List.nil_append]
  by_cases hk : keepLine anchor
  · rw [if_pos hk]
    have hfc : (anchor :: post).filter keepLine = anchor :: post.filter keepLine :=
      List.filter_cons_of_pos hk
    rw [hfc] at hlt ⊢
    simp only [List.length_cons] at hlt
    have hne : ([anchor] : List (List Char)).length ≠ t := by
      simp only [List.length_cons, List.length_nil]
      omega
    rw [if_neg hne, extract_loop_inside_all fl t post (i + 1) (i + 1) [anchor]
      (by simpa using (by omega : 1 + (post.filter keepLine).length < t))]
    simp
  · rw [if_neg hk]
    have hfc : (anchor :: post).filter keepLine = post.filter keepLine :=
      List.filter_cons_of_neg hk
    rw [hfc] at hlt ⊢
    have hne : ([] : List (List Char)).length ≠ t := by
      simp only [List.length_nil]
      omega
    rw [if_neg hne, extract_loop_inside_all fl t post (i + 1) (i + 1) []
      (by simpa using hlt)]
    simp

lemma extract_loop_pre_all (fl : List Char) (t : Nat) (anchor : List Char)
    (post : List (List Char)) (hanchor : trim anchor = trim fl)
    (hlt : ((anchor :: post).filter keepLine).length < t)
    (pre : List (List Char)) :
    ∀ i start, (∀ l ∈ pre, trim l ≠ trim fl) →
      extract_loop fl t (pre ++ anchor :: post) i false start []
        = (true, i + pre.length + 1, (anchor :: post).filter keepLine) := by
  induction pre with
  | nil =>
    intro i start _
    simpa using extract_loop_anchor_all fl t anchor post i start hanchor hlt
  | cons p pre' ih =>
    intro i start hpre
    rw [List.cons_append,
      extract_loop_skip fl t p (pre' ++ anchor :: post) i start []
        (hpre p (List.mem_cons_self p pre')),
      ih (i + 1) start (fun l hl => hpre l (List.mem_cons_of_mem p hl))]
    simp only [List.length_cons, Prod.mk.injEq, and_true, true_and]
    omega

/-- Claim C1 is false on the code: with file `"a"` and snippet `"a\nb"`, the
anchor `"a"` occurs in the file, the meaningful lines from the anchor to the
end of the file number 1, which never reaches the snippet's line count 2, and
yet `extract_clean_block` returns the partial block `Some (1, "a")`, not
`None`. -/
theorem extract_short_counterexample :
    (rustLines (str "a\nb")).find? (fun l => !decide (trim l = [])) = some (str "a") ∧
    (∃ l ∈ rustLines (str "a"), trim l = trim (str "a")) ∧
    ((rustLines (str "a")).filter keepLine).length < (rustLines (str "a\nb")).length ∧
    extract_clean_block (str "a") (str "a\nb") = some (1, str "a") := by
  decide

/-- Claim C1 amended: when the anchor (the snippet's first non-blank line)
does occur in the file but the meaningful lines from the first anchor match to
the end of the file never reach the snippet's line count, `extract_clean_block`
does not return `None`: it returns the partial block of all meaningful lines
from the anchor to the end of the file, with the anchor's 1-based line
number. -/
theorem extract_short_returns_partial (f s fl anchor : List Char)
    (pre post : List (List Char))
    (hfl : (rustLines s).find? (fun l => !decide (trim l = [])) = some fl)
    (hsplit : rustLines f = pre ++ anchor :: post)
    (hpre : ∀ l ∈ pre, trim l ≠ trim fl)
    (hanchor : trim anchor = trim fl)
    (hshort : ((anchor :: post).filter keepLine).length < (rustLines s).length) :
    extract_clean_block f s
      = some (pre.length + 1, joinNl ((anchor :: post).filter keepLine)) := by
  unfold extract_clean_block
  rw [hfl, hsplit]
  simp only
  rw [extract_loop_pre_all fl (rustLines s).length anchor post hanchor hshort pre 0 0 hpre]
  simp

/-- Witness for the amended C1 at file `"a"`, snippet `"a\nb"`. -/
theorem extract_short_returns_partial_witness :
    extract_clean_block (str "a") (str "a\nb")
      = some ((List.length ([] : List (List Char))) + 1,
          joinNl (List.filter keepLine [str "a"])) :=
  extract_short_returns_partial (str "a") (str "a\nb") (str "a") (str "a") [] []
    (by decide) (by decide) (by decide) (by decide) (by decide)

/-! ## Round trips between `rustLines` and `joinNl` -/

lemma splitNl_cons (c : Char) (cs h0 : List Char) (tl : List (List Char))
    (hsp : splitNl cs = h0 :: tl) :
    splitNl (c :: cs) = if c = '\n' then [] :: h0 :: tl else (c :: h0) :: tl := by
  unfold splitNl
  rw [hsp]

lemma splitNl_ne_nil (s : List Char) : splitNl s ≠ [] := by
  induction s with
  | nil => simp [splitNl]
  | cons c cs ih =>
    rcases hsp : splitNl cs with _ | ⟨h0, tl⟩
    · exact absurd hsp ih
    · rw [splitNl_cons c cs h0 tl hsp]
      by_cases hc : c = '\n' <;> simp [hc]

lemma splitNl_no_nl (s : List Char) : ∀ l ∈ splitNl s, '\n' ∉ l := by
  induction s with
  | nil => intro l hl; simp [splitNl] at hl; simp [hl]
  | cons c cs ih =>
    intro l hl
    rcases hsp : splitNl cs with _ | ⟨h0, tl⟩
    · exact absurd hsp (splitNl_ne_nil cs)
    rw [splitNl_cons c cs h0 tl hsp] at hl
    by_cases hc : c = '\n'
    · rw [if_pos hc] at hl
      rcases List.mem_cons.mp hl with rfl | hmem
      · simp
      · exact ih l (by rw [hsp]; exact hmem)
    · rw [if_neg hc] at hl
      rcases List.mem_cons.mp hl with rfl | hmem
      · intro hmem2
        rcases List.mem_cons.mp hmem2 with h2 | h2
        · exact hc h2.symm
        · exact ih h0 (by rw [hsp]; exact List.mem_cons_self h0 tl) h2
      · exact ih l (by rw [hsp]; exact List.mem_cons_of_mem h0 hmem)

lemma splitNl_chars (s : List Char) : ∀ l ∈ splitNl s, ∀ c ∈ l, c ∈ s := by
  induction s with
  | nil => intro l hl c hc; simp [splitNl] at hl; simp [hl] at hc
  | cons a cs ih =>
    intro l hl c hc
    rcases hsp : splitNl cs with _ | ⟨h0, tl⟩
    · exact absurd hsp (splitNl_ne_nil cs)
    rw [splitNl_cons a cs h0 tl hsp] at hl
    by_cases ha : a = '\n'
    · rw [if_pos ha] at hl
      rcases List.mem_cons.mp hl with rfl | hmem
      · simp at hc
      · exact List.mem_cons_of_mem a (ih l (by rw [hsp]; exact hmem) c hc)
    · rw [if_neg ha] at hl
      rcases List.mem_cons.mp hl with rfl | hmem
      · rcases List.mem_cons.mp hc with rfl | h2
        · exact List.mem_cons_self c cs
        · exact List.mem_cons_of_mem a
            (ih h0 (by rw [hsp]; exact List.mem_cons_self h0 tl) c h2)
      · exact List.mem_cons_of_mem a
          (ih l (by rw [hsp]; exact List.mem_cons_of_mem h0 hmem) c hc)

lemma splitNl_of_no_nl (s : List Char) (h : '\n' ∉ s) : splitNl s = [s] := by
  induction s with
  | nil => rfl
  | cons c cs ih =>
    rw [splitNl_cons c cs cs [] (ih (fun hm => h (List.mem_cons_of_mem c hm)))]
    rw [if_neg (fun hc => h (by rw [hc]; exact List.mem_cons_self '\n' cs))]

lemma splitNl_append (l t : List Char) (h : '\n' ∉ l) (h0 : List Char)
    (tl : List (List Char)) (hsp : splitNl t = h0 :: tl) :
    splitNl (l ++ t) = (l ++ h0) :: tl := by
  induction l with
  | nil => simpa using hsp
  | cons c cs ih =>
    rw [List.cons_append,
      splitNl_cons c (cs ++ t) (cs ++ h0) tl
        (ih (fun hm => h (List.mem_cons_of_mem c hm))),
      if_neg (fun hc => h (by rw [hc]; exact List.mem_cons_self '\n' cs))]
    rfl

lemma joinNl_splitNl (s : List Char) : joinNl (splitNl s) = s := by
  induction s with
  | nil => rfl
  | cons c cs ih =>
    rcases hsp : splitNl cs with _ | ⟨h0, tl⟩
    · exact absurd hsp (splitNl_ne_nil cs)
    rw [hsp] at ih
    rw [splitNl_cons c cs h0 tl hsp]
    by_cases hc : c = '\n'
    · rw [if_pos hc]
      subst hc
      cases tl with
      | nil => simpa [joinNl] using ih
      | cons t0 ts => simpa [joinNl] using ih
    · rw [if_neg hc]
      cases tl with
      | nil => simpa [joinNl] using ih
      | cons t0 ts =>
        simp only [joinNl, List.cons_append] at ih ⊢
        rw [ih]

lemma splitNl_joinNl (ls : List (List Char)) (hne : ls ≠ [])
    (h : ∀ l ∈ ls, '\n' ∉ l) : splitNl (joinNl ls) = ls := by
  induction ls with
  | nil => cases hne rfl
  | cons l ls ih =>
    cases ls with
    | nil =>
      show splitNl (joinNl [l]) = [l]
      exact splitNl_of_no_nl l (h l (List.mem_cons_self l []))
    | cons l2 ls2 =>
      have ih2 := ih (by simp) (fun x hx => h x (List.mem_cons_of_mem l hx))
      show splitNl (l ++ '\n' :: joinNl (l2 :: ls2)) = l :: l2 :: ls2
      have hsp : splitNl ('\n' :: joinNl (l2 :: ls2)) = [] :: l2 :: ls2 := by
        rcases hsp2 : splitNl (joinNl (l2 :: ls2)) with _ | ⟨h0, tl⟩
        · exact absurd hsp2 (splitNl_ne_nil _)
        rw [hsp2] at ih2
        rw [splitNl_cons '\n' (joinNl (l2 :: ls2)) h0 tl hsp2, if_pos rfl, ih2]
      rw [splitNl_append l ('\n' :: joinNl (l2 :: ls2))
        (h l (List.mem_cons_self l _)) [] (l2 :: ls2) hsp]
      simp

lemma getLast?_mem_of_eq {α : Type} (l : List α) (a : α) (h : l.getLast? = some a) :
    a ∈ l := by
  induction l with
  | nil => cases h
  | cons x xs ih =>
    cases xs with
    | nil =>
      simp only [List.getLast?_singleton, Option.some.injEq] at h
      simp [h]
    | cons y ys =>
      rw [List.getLast?_cons_cons] at h
      exact List.mem_cons_of_mem x (ih h)

lemma stripCr_id (l : List Char) (h : '\r' ∉ l) : stripCr l = l := by
  unfold stripCr
  rw [if_neg]
  intro hc
  exact h (getLast?_mem_of_eq l '\r' hc)

lemma rustLines_joinNl (ls : List (List Char))
    (h : ∀ l ∈ ls, l ≠ [] ∧ '\n' ∉ l ∧ '\r' ∉ l) :
    rustLines (joinNl ls) = ls := by
  cases hls : ls with
  | nil => rfl
  | cons l0 ls0 =>
    subst hls
    have hsp : splitNl (joinNl (l0 :: ls0)) = l0 :: ls0 :=
      splitNl_joinNl _ (by simp) (fun x hx => (h x hx).2.1)
    have hjne : joinNl (l0 :: ls0) ≠ [] := by
      intro hj
      have := congrArg splitNl hj
      rw [hsp] at this
      have hl0 : l0 = [] := by
        have : l0 :: ls0 = [[]] := by simpa [splitNl] using this
        simp at this
        exact this.1
      exact (h l0 (List.mem_cons_self l0 ls0)).1 hl0
    unfold rustLines
    rw [if_neg (by simpa [List.isEmpty_iff] using hjne)]
    simp only [hsp]
    have hlast : (l0 :: ls0).getLast? = some ((l0 :: ls0).getLast (by simp)) :=
      List.getLast?_eq_getLast _ _
    have hlast_ne : (l0 :: ls0).getLast? ≠ some ([] : List Char) := by
      rw [hlast]
      intro hc
      have hmem := List.getLast_mem (l := l0 :: ls0) (by simp)
      rw [Option.some.injEq] at hc
      rw [hc] at hmem
      exact (h [] hmem).1 rfl
    rw [if_neg hlast_ne]
    have hmap : (l0 :: ls0).dropLast.map stripCr = (l0 :: ls0).dropLast := by
      have := List.map_congr_left (l := (l0 :: ls0).dropLast) (f := stripCr) (g := id)
        (fun a ha => stripCr_id a
          ((h a ((List.dropLast_sublist (l0 :: ls0)).subset ha)).2.2))
      rw [this, List.map_id]
    rw [hmap, hlast]
    simp only [Option.getD_some]
    exact List.dropLast_append_getLast (by simp)

lemma rustLines_subset_splitNl (s : List Char) :
    ∀ l ∈ rustLines s, ∃ l0 ∈ splitNl s, ∀ c ∈ l, c ∈ l0 := by
  intro l hl
  unfold rustLines at hl
  by_cases hse : s.isEmpty
  · rw [if_pos hse] at hl
    exact absurd hl (List.not_mem_nil l)
  · rw [if_neg hse] at hl
    simp only at hl
    by_cases hlast : (splitNl s).getLast? = some ([] : List Char)
    · rw [if_pos hlast] at hl
      rcases List.mem_map.mp hl with ⟨l0, hl0, rfl⟩
      refine ⟨l0, (List.dropLast_sublist _).subset hl0, ?_⟩
      intro c hc
      unfold stripCr at hc
      split at hc
      · exact (List.dropLast_sublist l0).subset hc
      · exact hc
    · rw [if_neg hlast] at hl
      rcases List.mem_append.mp hl with hmem | hmem
      · rcases List.mem_map.mp hmem with ⟨l0, hl0, rfl⟩
        refine ⟨l0, (List.dropLast_sublist _).subset hl0, ?_⟩
        intro c hc
        unfold stripCr at hc
        split at hc
        · exact (List.dropLast_sublist l0).subset hc
        · exact hc
      · have hle : l = ((splitNl s).getLast?).getD [] := by
          rcases List.mem_cons.mp hmem with h2 | h2
          · exact h2
          · exact absurd h2 (List.not_mem_nil l)
        rcases hg : (splitNl s).getLast? with _ | l0
        · rcases hne : splitNl s with _ | ⟨h0, tl⟩
          · exact absurd hne (splitNl_ne_nil s)
          · rw [hne] at hg
            rw [List.getLast?_eq_getLast (h0 :: tl) (by simp)] at hg
            cases hg
        · refine ⟨l0, getLast?_mem_of_eq _ _ hg, ?_⟩
          rw [hle, hg]
          exact fun c hc => hc

lemma rustLines_no_nl (s : List Char) : ∀ l ∈ rustLines s, '\n' ∉ l := by
  intro l hl hmem
  rcases rustLines_subset_splitNl s l hl with ⟨l0, hl0, hsub⟩
  exact splitNl_no_nl s l0 hl0 (hsub '\n' hmem)

lemma rustLines_chars (s : List Char) :
    ∀ l ∈ rustLines s, ∀ c ∈ l, c ∈ s := by
  intro l hl c hc
  rcases rustLines_subset_splitNl s l hl with ⟨l0, hl0, hsub⟩
  exact splitNl_chars s l0 hl0 c (hsub c hc)

lemma splitNl_getLast_ne_nil (s : List Char) :
    s ≠ [] → s.getLast? ≠ some '\n' → (splitNl s).getLast? ≠ some ([] : List Char) := by
  induction s with
  | nil => intro h; cases h rfl
  | cons c cs ih =>
    intro _ hlast
    cases cs with
    | nil =>
      rw [splitNl_cons c [] [] [] rfl]
      rw [if_neg (by simpa using hlast)]
      simp
    | cons c2 cs2 =>
      rw [List.getLast?_cons_cons] at hlast
      have ihr := ih (by simp) hlast
      rcases hsp : splitNl (c2 :: cs2) with _ | ⟨h0, tl⟩
      · exact absurd hsp (splitNl_ne_nil _)
      rw [splitNl_cons c (c2 :: cs2) h0 tl hsp]
      rw [hsp] at ihr
      by_cases hc : c = '\n'
      · rw [if_pos hc]
        rw [List.getLast?_cons_cons]
        exact ihr
      · rw [if_neg hc]
        cases tl with
        | nil =>
          simp only [List.getLast?_singleton, ne_eq, Option.some.injEq] at ihr ⊢
          simp
        | cons t0 ts =>
          rw [List.getLast?_cons_cons]
          rw [List.getLast?_cons_cons] at ihr
          exact ihr

lemma joinNl_rustLines (s : List Char) (h1 : '\r' ∉ s)
    (h2 : s.getLast? ≠ some '\n') : joinNl (rustLines s) = s := by
  cases hs : s with
  | nil => rfl
  | cons c0 cs0 =>
    subst hs
    unfold rustLines
    rw [if_neg (by simp)]
    simp only
    rw [if_neg (splitNl_getLast_ne_nil (c0 :: cs0) (by simp) h2)]
    have hmap : (splitNl (c0 :: cs0)).dropLast.map stripCr
        = (splitNl (c0 :: cs0)).dropLast := by
      have := List.map_congr_left (l := (splitNl (c0 :: cs0)).dropLast)
        (f := stripCr) (g := id)
        (fun a ha => stripCr_id a (fun hr => h1
          (splitNl_chars (c0 :: cs0) a
            ((List.dropLast_sublist _).subset ha) '\r' hr)))
      rw [this, List.map_id]
    rw [hmap]
    rw [List.getLast?_eq_getLast _ (splitNl_ne_nil (c0 :: cs0))]
    simp only [Option.getD_some]
    rw [List.dropLast_append_getLast (splitNl_ne_nil (c0 :: cs0))]
    exact joinNl_splitNl (c0 :: cs0)

/-! ## Claim C2 -/

/-- Formalizes the claim's premise "the block equals the snippet with a
uniform extra indentation applied to every line": prepend the prefix `p` to
every line of `s`. -/
def addIndent (p s : List Char) : List Char :=
  joinNl ((rustLines s).map (fun l => p ++ l))

lemma remove_lines_addIndent (ls : List (List Char)) :
    remove_lines (ls.map (fun l => fourSpaces ++ l)) = some ls := by
  induction ls with
  | nil => rfl
  | cons l ls ih =>
    simp only [List.map_cons]
    unfold remove_lines
    rw [ih]
    have hstrip : stripPre fourSpaces (fourSpaces ++ l) = some l := by
      unfold stripPre
      rw [List.take_left, if_pos rfl, List.drop_left]
    rw [hstrip]

/-- Claim C2 is false on the code: the reconciliation strips exactly one
four-space unit, so a block that is the snippet with a uniform extra
indentation of eight spaces on every line is still reported as a mismatch. -/
theorem reconciliation_not_any_uniform_indent :
    addIndent (str "        ") (str "a") = str "        a" ∧
    remove_identation (str "a") = none ∧
    snippet_matches (str "a") (addIndent (str "        ") (str "a")) = false := by
  decide

/-- Claim C2 amended: when the real block equals the snippet with a uniform
extra indentation of exactly one four-space unit applied to every line, the
comparison verdict contribution is a match (the indentation-stripping
reconciliation succeeds and no diff is recorded).  The hypotheses rule out
carriage returns and a trailing newline in the snippet, which line-joining
cannot round-trip. -/
theorem reconciliation_four_spaces (cs : List Char)
    (h1 : '\r' ∉ cs) (h2 : cs.getLast? ≠ some '\n') :
    snippet_matches cs (addIndent fourSpaces cs) = true := by
  have hlines : rustLines (addIndent fourSpaces cs)
      = (rustLines cs).map (fun l => fourSpaces ++ l) := by
    unfold addIndent
    apply rustLines_joinNl
    intro l hl
    rcases List.mem_map.mp hl with ⟨l0, hl0, rfl⟩
    refine ⟨by simp [fourSpaces, str], ?_, ?_⟩
    · intro hnl
      rcases List.mem_append.mp hnl with hm | hm
      · simp [fourSpaces, str] at hm
      · exact rustLines_no_nl cs l0 hl0 hm
    · intro hr
      rcases List.mem_append.mp hr with hm | hm
      · simp [fourSpaces, str] at hm
      · exact h1 (rustLines_chars cs l0 hl0 '\r' hm)
  have hri : remove_identation (addIndent fourSpaces cs) = some cs := by
    unfold remove_identation
    rw [hlines, remove_lines_addIndent]
    simp only [Option.map_some']
    rw [joinNl_rustLines cs h1 h2]
  unfold snippet_matches
  rw [hri]
  simp

/-- Witness for the amended C2 at the two-line snippet `"a\nb"`. -/
theorem reconciliation_four_spaces_witness :
    snippet_matches (str "a\nb") (addIndent fourSpaces (str "a\nb")) = true :=
  reconciliation_four_spaces (str "a\nb") (by decide) (by decide)

/-! ## Claim C3 -/

lemma scLine_chars (l : List Char) : ∀ c ∈ scLine l, c ∈ l := by
  intro c hc
  unfold scLine at hc
  split at hc
  · rcases List.mem_append.mp hc with hm | hm
    · exact (List.takeWhile_sublist _).subset hm
    · exact ((List.dropWhile_sublist isWs).trans
        ((List.drop_sublist 1 _).trans (List.dropWhile_sublist _))).subset hm
  · exact hc

lemma keepLine_nil : keepLine ([] : List Char) = false := by decide

lemma scLine_of_not_bareHash (l : List Char) (h : bareHash l = false) :
    scLine l = l := by
  unfold scLine
  simp [h]

/-- Claim C3 is false on the code: stripping comments is not idempotent.  On
the line `"# # x"` the first pass removes only the first directive marker,
leaving `"# x"`, and a second pass removes the second marker, leaving
`"x"`. -/
theorem strip_comments_not_idempotent :
    strip_comments (str "# # x") = str "# x" ∧
    strip_comments (strip_comments (str "# # x")) = str "x" ∧
    strip_comments (strip_comments (str "# # x")) ≠ strip_comments (str "# # x") := by
  decide

/-- Claim C3 amended: stripping comments twice yields the same result as
stripping once, provided the document contains no carriage return and no line
of the once-stripped output still begins (after left-trimming) with a bare
directive marker (a `'#'` not starting `"#["`).  The counterexample `"# # x"`
(and `'\r'`-games with line re-splitting) are exactly what the hypotheses
exclude. -/
theorem strip_comments_idem (s : List Char) (h1 : '\r' ∉ s)
    (h2 : ∀ l ∈ rustLines (strip_comments s), bareHash l = false) :
    strip_comments (strip_comments s) = strip_comments s := by
  have hstrip : strip_comments s
      = joinNl (((rustLines s).map scLine).filter keepLine) := rfl
  have hcond : ∀ l ∈ ((rustLines s).map scLine).filter keepLine,
      l ≠ [] ∧ '\n' ∉ l ∧ '\r' ∉ l := by
    intro l hl
    have hkeep : keepLine l = true := List.of_mem_filter hl
    have hmem : l ∈ (rustLines s).map scLine := List.mem_of_mem_filter hl
    rcases List.mem_map.mp hmem with ⟨l0, hl0, rfl⟩
    refine ⟨?_, ?_, ?_⟩
    · intro hnil
      rw [hnil] at hkeep
      rw [keepLine_nil] at hkeep
      cases hkeep
    · intro hnl
      exact rustLines_no_nl s l0 hl0 (scLine_chars l0 '\n' hnl)
    · intro hr
      exact h1 (rustLines_chars s l0 hl0 '\r' (scLine_chars l0 '\r' hr))
  have hrt : rustLines (strip_comments s)
      = ((rustLines s).map scLine).filter keepLine := by
    rw [hstrip]
    exact rustLines_joinNl _ hcond
  rw [hrt] at h2
  show joinNl (((rustLines (strip_comments s)).map scLine).filter keepLine)
      = strip_comments s
  rw [hrt]
  have hmap : (((rustLines s).map scLine).filter keepLine).map scLine
      = ((rustLines s).map scLine).filter keepLine := by
    have := List.map_congr_left (l := ((rustLines s).map scLine).filter keepLine)
      (f := scLine) (g := id) (fun a ha => scLine_of_not_bareHash a (h2 a ha))
    rw [this, List.map_id]
  rw [hmap]
  have hfil : (((rustLines s).map scLine).filter keepLine).filter keepLine
      = ((rustLines s).map scLine).filter keepLine := by
    rw [List.filter_eq_self]
    exact fun a ha => List.of_mem_filter ha
  rw [hfil, hstrip]

/-- Witness for the amended C3 at a document with code, a comment, a blank
line, and an attribute line. -/
theorem strip_comments_idem_witness :
    strip_comments (strip_comments (str "let x;\n// c\n\n#[derive(Debug)]"))
      = strip_comments (str "let x;\n// c\n\n#[derive(Debug)]") :=
  strip_comments_idem (str "let x;\n// c\n\n#[derive(Debug)]") (by decide) (by decide)

/-! ## Claim C4 -/

lemma trimStart_ws_append (pre t : List Char) (h : ∀ c ∈ pre, isWs c = true) :
    trimStart (pre ++ t) = trimStart t := by
  induction pre with
  | nil => rfl
  | cons c cs ih =>
    rw [List.cons_append]
    unfold trimStart
    rw [List.dropWhile_cons, if_pos (h c (List.mem_cons_self c cs))]
    exact ih (fun x hx => h x (List.mem_cons_of_mem c hx))

lemma trimStart_not_ws (c : Char) (t : List Char) (h : isWs c = false) :
    trimStart (c :: t) = c :: t := by
  unfold trimStart
  rw [List.dropWhile_cons, if_neg (by simp [h])]

lemma takeWhile_ws_hash (pre post : List Char) (h : ∀ c ∈ pre, isWs c = true) :
    (pre ++ '#' :: post).takeWhile (· ≠ '#') = pre := by
  induction pre with
  | nil => rfl
  | cons c cs ih =>
    rw [List.cons_append, List.takeWhile_cons]
    have hc : c ≠ '#' := by
      intro hc
      have := h c (List.mem_cons_self c cs)
      rw [hc] at this
      cases this
    rw [if_pos (by simpa using hc), ih (fun x hx => h x (List.mem_cons_of_mem c hx))]

lemma dropWhile_ws_hash (pre post : List Char) (h : ∀ c ∈ pre, isWs c = true) :
    (pre ++ '#' :: post).dropWhile (· ≠ '#') = '#' :: post := by
  induction pre with
  | nil => rfl
  | cons c cs ih =>
    rw [List.cons_append, List.dropWhile_cons]
    have hc : c ≠ '#' := by
      intro hc
      have := h c (List.mem_cons_self c cs)
      rw [hc] at this
      cases this
    rw [if_pos (by simpa using hc)]
    exact ih (fun x hx => h x (List.mem_cons_of_mem c hx))

lemma rustLines_single (l : List Char) (hnl : '\n' ∉ l) (hne : l ≠ []) :
    rustLines l = [l] := by
  unfold rustLines
  rw [if_neg (by simpa [List.isEmpty_iff] using hne)]
  simp only [splitNl_of_no_nl l hnl]
  rw [if_neg (by simpa using hne)]
  simp

/-- Claim C4 is false on the code: on a line with a bare directive marker the
stripper does not drop everything from the marker onward; it keeps the text
after the marker (with the spaces following the marker removed).  The claim's
prediction for `"  # let x = 1;"` would be the all-blank prefix `"  "`, which
the blank filter would then drop, giving `""`; the code gives
`"  let x = 1;"`. -/
theorem directive_line_counterexample :
    strip_comments (str "  # let x = 1;") = str "  let x = 1;" ∧
    strip_comments (str "  # let x = 1;") ≠ str "" := by decide

/-- Claim C4 amended: on a line whose left-trimmed content begins with a
directive marker `'#'` not followed by `'['`, the stripper removes only the
marker itself and the whitespace immediately after it, preserving both the
prefix before the marker and the remaining text after the marker; the
resulting line is then kept or dropped by the ordinary comment/blank
filter. -/
theorem directive_marker_unhides (pre post : List Char)
    (hws : ∀ c ∈ pre, isWs c = true)
    (hnl1 : '\n' ∉ pre) (hnl2 : '\n' ∉ post)
    (hbr : post.take 1 ≠ ['[']) :
    strip_comments (pre ++ '#' :: post)
      = if keepLine (pre ++ trimStart post) then pre ++ trimStart post else [] := by
  have hline : rustLines (pre ++ '#' :: post) = [pre ++ '#' :: post] := by
    apply rustLines_single
    · intro hm
      rcases List.mem_append.mp hm with hm2 | hm2
      · exact hnl1 hm2
      · rcases List.mem_cons.mp hm2 with h2 | h2
        · cases h2
        · exact hnl2 h2
    · simp
  have hts : trimStart (pre ++ '#' :: post) = '#' :: post := by
    rw [trimStart_ws_append pre _ hws]
    exact trimStart_not_ws '#' post (by decide)
  have ha : hasPre (str "#") ('#' :: post) = true := by
    unfold hasPre
    simp [str]
  have hb : hasPre (str "#[") ('#' :: post) = false := by
    unfold hasPre
    simp only [decide_eq_false_iff_not]
    intro hc
    apply hbr
    have h2 : ('#' :: post).take (str "#[").length = '#' :: post.take 1 := rfl
    rw [h2] at hc
    have h3 : str "#[" = '#' :: ['['] := rfl
    rw [h3] at hc
    exact (List.cons.injEq _ _ _ _).mp hc |>.2
  have hbare : bareHash (pre ++ '#' :: post) = true := by
    unfold bareHash
    rw [hts, ha, hb]
    rfl
  have hsc : scLine (pre ++ '#' :: post) = pre ++ trimStart post := by
    unfold scLine
    rw [if_pos hbare]
    rw [takeWhile_ws_hash pre post hws, dropWhile_ws_hash pre post hws]
    rfl
  unfold strip_comments
  rw [hline]
  simp only [List.map_cons, List.map_nil, hsc]
  by_cases hk : keepLine (pre ++ trimStart post)
  · rw [List.filter_cons_of_pos hk, if_pos hk]
    rfl
  · rw [List.filter_cons_of_neg (by simpa using hk), if_neg hk]
    rfl

/-- Witness for the amended C4 at the line `"  # let x"`. -/
theorem directive_marker_unhides_witness :
    strip_comments ((str "  ") ++ '#' :: (str " let x"))
      = (if keepLine ((str "  ") ++ trimStart (str " let x"))
         then (str "  ") ++ trimStart (str " let x") else []) :=
  directive_marker_unhides (str "  ") (str " let x")
    (by decide) (by decide) (by decide) (by decide)

/-! ## Claim C7 -/

lemma process_snippets_cons (fs : List Char → Option (List Char)) (i : Nat)
    (p s : List Char) (rest : List (List Char × List Char)) (diff : Option Bool) :
    process_snippets fs i ((p, s) :: rest) diff
      = match process_snippet fs p s (if i = 0 then some false else diff) with
        | .error e => .error e
        | .ok diff2 => process_snippets fs (i + 1) rest diff2 := rfl

lemma process_snippet_result (fs : List Char → Option (List Char))
    (p s : List Char) (d d2 : Option Bool)
    (h : process_snippet fs p s d = .ok d2) : d2 = d ∨ d2 = some true := by
  unfold process_snippet at h
  cases hfs : fs p with
  | none => rw [hfs] at h; cases h
  | some content =>
    rw [hfs] at h
    simp only [] at h
    split at h
    · cases h
    · split at h
      · cases h
      · split at h
        · cases h
          left
          rfl
        · cases h
          right
          rfl

lemma process_snippets_stays_true (fs : List Char → Option (List Char)) :
    ∀ pairs i d, process_snippets fs (i + 1) pairs (some true) = .ok d →
      d = some true := by
  intro pairs
  induction pairs with
  | nil =>
    intro i d h
    unfold process_snippets at h
    cases h
    rfl
  | cons pr rest ih =>
    obtain ⟨p, s⟩ := pr
    intro i d h
    rw [process_snippets_cons,
      show (if i + 1 = 0 then some false else some true) = some true from rfl] at h
    rcases hps : process_snippet fs p s (some true) with e | d2
    · rw [hps] at h
      cases h
    · rw [hps] at h
      rcases process_snippet_result fs p s (some true) d2 hps with rfl | rfl
        <;> exact ih (i + 1) d h

lemma process_snippets_not_none (fs : List Char → Option (List Char)) :
    ∀ pairs i b d, process_snippets fs i pairs (some b) = .ok d → d ≠ none := by
  intro pairs
  induction pairs with
  | nil =>
    intro i b d h
    unfold process_snippets at h
    cases h
    simp
  | cons pr rest ih =>
    obtain ⟨p, s⟩ := pr
    intro i b d h
    rw [process_snippets_cons] at h
    by_cases hi : i = 0
    · rw [if_pos hi] at h
      rcases hps : process_snippet fs p s (some false) with e | d2
      · rw [hps] at h
        cases h
      · rw [hps] at h
        rcases process_snippet_result fs p s (some false) d2 hps with rfl | rfl
        · exact ih (i + 1) false d h
        · exact ih (i + 1) true d h
    · rw [if_neg hi] at h
      rcases hps : process_snippet fs p s (some b) with e | d2
      · rw [hps] at h
        cases h
      · rw [hps] at h
        rcases process_snippet_result fs p s (some b) d2 hps with rfl | rfl
        · exact ih (i + 1) b d h
        · exact ih (i + 1) true d h

/-- Claim C7: the per-document verdict moves off `none` (NotStarted) on the
first extracted snippet regardless of its match outcome — a completed run
with at least one extracted snippet never yields the `none` verdict — and the
`some true` (HasDiff) verdict is terminal: no later snippet, matching or not,
can revert it. -/
theorem verdict_state_machine (fs : List Char → Option (List Char)) :
    (∀ md d, extract_snippets (bqStrip md) ≠ [] →
        get_md_snippets_diff fs md = .ok d → d ≠ none) ∧
    (∀ i pairs d, process_snippets fs (i + 1) pairs (some true) = .ok d →
        d = some true) := by
  constructor
  · intro md d hne h
    unfold get_md_snippets_diff at h
    rcases hext : extract_snippets (bqStrip md) with _ | ⟨⟨p, s⟩, rest⟩
    · exact absurd hext hne
    rw [hext, process_snippets_cons,
      show (if (0 : Nat) = 0 then some false else (none : Option Bool))
          = some false from rfl] at h
    rcases hps : process_snippet fs p s (some false) with e | d2
    · rw [hps] at h
      cases h
    · rw [hps] at h
      rcases process_snippet_result fs p s (some false) d2 hps with rfl | rfl
      · exact process_snippets_not_none fs rest 1 false d h
      · exact process_snippets_not_none fs rest 1 true d h
  · intro i pairs d h
    exact process_snippets_stays_true fs pairs i d h

/-- Witness for C7: a document whose single snippet matches yields the
`some false` verdict, which is not `none`; and from `some true` the loop over
no further snippets stays at `some true`. -/
theorem verdict_state_machine_witness :
    ((some false : Option Bool) ≠ none) ∧ ((some true : Option Bool) = some true) :=
  ⟨(verdict_state_machine
        (fun p => if p = str "f.rs" then some (str "let x = 1;") else none)).1
      (str "```rust\n# // Path: f.rs\nlet x = 1;\n```") (some false)
      (by decide) (by decide),
   (verdict_state_machine (fun _ => none)).2 0 [] (some true) rfl⟩
